import Mathlib

/-!
Shallow embedding of the oscen JUCE benchmark programs
(`src/juce-benchmarks/simple-sine/main.cpp`,
`src/juce-benchmarks/medium-graph/main.cpp`,
`src/juce-benchmarks/complex-graph/main.cpp`).

The three programs are block-based audio processors: a driver loop feeds
441000 samples in blocks of 512 (last block 168) through a processor whose
`processBlock` runs a fixed signal graph (oscillators, biquad lowpass
filters, ADSR envelopes, a feedback delay line) sample by sample while
threading per-node state across blocks.

The per-node algorithms (`juce::dsp::Oscillator`, `juce::ADSR`,
`juce::dsp::DelayLine`, `juce::dsp::IIR::Filter`) live in the JUCE library,
whose sources are not part of this repository; those node step functions are
modelled from the specification (phase accumulator with modulo-2π wrap,
timed linear-ramp ADSR state machine, single-index read-then-write circular
delay buffer, direct-form biquad).  The `processBlock` bodies, the
`prepareToPlay` bodies and the benchmark driver loop are translated directly
from the sources.

Samples are carried in an arbitrary linear ordered field `K` so that the
same definitions serve exact rational evaluation (witnesses) and the
real-valued trigonometric statements.
-/

namespace OscenBench

/-- Run a source node (no per-sample input): produce `n` output samples from
initial state `s`, threading the state.  This is the per-sample elaboration
of a block call such as `oscillator.process(context)`. -/
def genRun {K S : Type} (f : S → K × S) : ℕ → S → List K × S
  | 0, s => ([], s)
  | n + 1, s =>
    let r := f s
    let rest := genRun f n r.2
    (r.1 :: rest.1, rest.2)

/-- Run a transformer node over an input list, threading the state.  This is
the per-sample elaboration of a block call such as `filter.process(context)`
or the explicit per-sample loops in `processBlock`. -/
def mapAccum {K S : Type} (f : S → K → K × S) : List K → S → List K × S
  | [], s => ([], s)
  | x :: xs, s =>
    let r := f s x
    let rest := mapAccum f xs r.2
    (r.1 :: rest.1, rest.2)

/-- Drive a processor block by block over a list of block sizes and
concatenate the produced blocks, as the benchmark `runBenchmark` loop does
with `processor.processBlock(buffer, midiBuffer)`. -/
def runBlocks {K S : Type} (p : ℕ → S → List K × S) : List ℕ → S → List K × S
  | [], s => ([], s)
  | n :: rest, s =>
    let r := p n s
    let r2 := runBlocks p rest r.2
    (r.1 ++ r2.1, r2.2)

/-- Fuel-indexed elaboration of the driver loop
`while (samplesProcessed < numSamples) { samplesToProcess = min(blockSize,
numSamples - samplesProcessed); ...; samplesProcessed += samplesToProcess; }`
(`runBenchmark` in each benchmark): the list of block sizes the loop issues,
with `remaining = numSamples - samplesProcessed`.  Each iteration consumes at
least one sample when both arguments are positive, so `remaining` itself is
enough fuel. -/
def driverBlocksF (fuel blockSize remaining : ℕ) : List ℕ :=
  match fuel with
  | 0 => []
  | fuel + 1 =>
    if remaining = 0 ∨ blockSize = 0 then []
    else
      min blockSize remaining ::
        driverBlocksF fuel blockSize (remaining - min blockSize remaining)

/-- Block sizes issued by the benchmark driver loop for a run of
`remaining` samples at block size `blockSize`. -/
def driverBlocks (blockSize remaining : ℕ) : List ℕ :=
  driverBlocksF remaining blockSize remaining

/-- State of the feedback delay line.  Modelled from the spec: a fixed-length
circular sample buffer with a single index (`readIndex = writeIndex`); the
delay in samples equals the buffer length (`juce::dsp::DelayLine` sources are
not in this repository). -/
structure DelayState (K : Type) where
  buf : List K
  idx : ℕ
  deriving Repr, DecidableEq

/-- One sample of the feedback delay stage, as in the delay loop of
`ComplexGraphProcessor::processBlock`:
`delayed = delay.popSample(0); output = input + delayed * g;
delay.pushSample(0, output);` — read the oldest sample at the current slot,
add it scaled by the feedback gain to the input, write the result back at
the same slot, advance the index modulo the buffer length. -/
def delayStep {K : Type} [LinearOrderedField K] (g : K) (s : DelayState K)
    (x : K) : K × DelayState K :=
  let delayed := s.buf.getD s.idx 0
  let out := x + g * delayed
  (out, ⟨s.buf.set s.idx out, (s.idx + 1) % s.buf.length⟩)

/-- Oscillator state: current phase (radians) and the per-sample phase
increment `2π·frequency/sampleRate` fixed by `prepare`/`setFrequency`.
Modelled from the spec: `juce::dsp::Oscillator` sources are not in this
repository; spec section 3 prescribes a phase that increases by
`2π·frequency/sampleRate` per sample and wraps modulo 2π into `[0, 2π)`,
and section 4.1 prescribes the output `g(phase)` for the configured
waveform function `g` (sine, or the saw ramp). -/
structure OscState (K : Type) where
  phase : K
  inc : K
  deriving Repr, DecidableEq

/-- Wrap a phase value modulo `twoPi`: subtract the integer number of whole
cycles, leaving a value in `[0, twoPi)` for positive `twoPi`. -/
def wrapPhase {K : Type} [LinearOrderedField K] [FloorRing K]
    (twoPi x : K) : K :=
  x - twoPi * ((⌊x / twoPi⌋ : ℤ) : K)

/-- Advance the oscillator phase by its increment and wrap it. -/
def oscAdvance {K : Type} [LinearOrderedField K] [FloorRing K]
    (twoPi : K) (s : OscState K) : OscState K :=
  ⟨wrapPhase twoPi (s.phase + s.inc), s.inc⟩

/-- One oscillator sample: emit `g(phase)` for the current phase, then
advance and wrap the phase. -/
def oscNext {K : Type} [LinearOrderedField K] [FloorRing K]
    (g : K → K) (twoPi : K) (s : OscState K) : K × OscState K :=
  (g s.phase, oscAdvance twoPi s)

/-- `SimpleSineProcessor::processBlock` (simple-sine/main.cpp lines 51-56):
the single sine oscillator is rendered over the whole block
(`oscillator.process(context)`), i.e. one `oscNext` per sample with the
state threaded through. -/
def simpleSineProcessBlock {K : Type} [LinearOrderedField K] [FloorRing K]
    (g : K → K) (twoPi : K) (n : ℕ) (s : OscState K) : List K × OscState K :=
  genRun (oscNext g twoPi) n s

/-- Phase of the ADSR envelope state machine (spec section 4.3). -/
inductive EnvPhase
  | idle
  | attack
  | decay
  | sustain
  | release
  | off
  deriving Repr, DecidableEq

/-- ADSR parameters with the stage durations already converted to whole
sample counts (`attackSec·sampleRate` etc.), as configured once in
`prepareToPlay`. -/
structure EnvParams (K : Type) where
  attackSamples : ℕ
  decaySamples : ℕ
  sustain : K
  releaseSamples : ℕ
  deriving Repr, DecidableEq

/-- ADSR state: current phase, current level, samples spent in the current
phase, and the level the release ramp started from. -/
structure EnvState (K : Type) where
  phase : EnvPhase
  level : K
  count : ℕ
  start : K
  deriving Repr, DecidableEq

/-- `noteOn()`: restart the cycle in Attack from level 0. -/
def envNoteOn {K : Type} [LinearOrderedField K] (_ : EnvState K) :
    EnvState K :=
  ⟨.attack, 0, 0, 0⟩

/-- `noteOff()`: enter Release, ramping down from the current level. -/
def envNoteOff {K : Type} [LinearOrderedField K] (s : EnvState K) :
    EnvState K :=
  ⟨.release, s.level, 0, s.level⟩

/-- One sample of the ADSR envelope (`envelope.getNextSample()`).
Modelled from the spec: `juce::ADSR` sources are not in this repository;
spec section 4.3 prescribes a timed state machine with linear ramps —
Attack ramps 0→1 over `attackSamples`, then Decay ramps 1→`sustain` over
`decaySamples`, then Sustain holds `sustain` until `noteOff`, then Release
ramps the held level to 0 over `releaseSamples`, then Off outputs 0. -/
def envStep {K : Type} [LinearOrderedField K] (p : EnvParams K)
    (s : EnvState K) : K × EnvState K :=
  match s.phase with
  | .idle => (s.level, s)
  | .attack =>
    if p.attackSamples ≤ s.count + 1 then
      (1, ⟨.decay, 1, 0, s.start⟩)
    else
      let l := ((s.count + 1 : ℕ) : K) / (p.attackSamples : K)
      (l, ⟨.attack, l, s.count + 1, s.start⟩)
  | .decay =>
    if p.decaySamples ≤ s.count + 1 then
      (p.sustain, ⟨.sustain, p.sustain, 0, s.start⟩)
    else
      let l := 1 - (((s.count + 1 : ℕ) : K) / (p.decaySamples : K)) *
        (1 - p.sustain)
      (l, ⟨.decay, l, s.count + 1, s.start⟩)
  | .sustain => (p.sustain, ⟨.sustain, p.sustain, s.count, s.start⟩)
  | .release =>
    if p.releaseSamples ≤ s.count + 1 then
      (0, ⟨.off, 0, 0, s.start⟩)
    else
      let l := s.start * (1 - ((s.count + 1 : ℕ) : K) / (p.releaseSamples : K))
      (l, ⟨.release, l, s.count + 1, s.start⟩)
  | .off => (0, s)

/-- State of the biquad filter: the five coefficients fixed by
`makeLowPass` at prepare time and the two-sample input/output history.
The recurrence is the standard direct-form difference equation of
`juce::dsp::IIR::Filter` as described in spec section 4.2. -/
structure BiquadState (K : Type) where
  b0 : K
  b1 : K
  b2 : K
  a1 : K
  a2 : K
  x1 : K
  x2 : K
  y1 : K
  y2 : K
  deriving Repr, DecidableEq

/-- One filtered sample:
`y = b0·x + b1·x1 + b2·x2 − a1·y1 − a2·y2`, then shift the history. -/
def biquadStep {K : Type} [LinearOrderedField K] (s : BiquadState K)
    (x : K) : K × BiquadState K :=
  let y := s.b0 * x + s.b1 * s.x1 + s.b2 * s.x2 - s.a1 * s.y1 - s.a2 * s.y2
  (y, { s with x1 := x, x2 := s.x1, y1 := y, y2 := s.y1 })

/-- Full state of `MediumGraphProcessor`: sine and saw oscillators, the
lowpass filter, and the envelope. -/
structure MediumState (K : Type) where
  sine : OscState K
  saw : OscState K
  filt : BiquadState K
  env : EnvState K
  deriving Repr, DecidableEq

/-- `MediumGraphProcessor::processBlock` (medium-graph/main.cpp lines
75-103), elaborated per sample: render the sine oscillator into the block,
render the saw oscillator into a scratch buffer, mix them with
`buffer.addFrom`, run the filter over the mix, then scale each sample by
`envelope.getNextSample()`. -/
def mediumProcessBlock {K : Type} [LinearOrderedField K] [FloorRing K]
    (gsine gsaw : K → K) (twoPi : K) (p : EnvParams K) (n : ℕ)
    (s : MediumState K) : List K × MediumState K :=
  let r1 := genRun (oscNext gsine twoPi) n s.sine
  let r2 := genRun (oscNext gsaw twoPi) n s.saw
  let mixed := List.zipWith (fun a b => a + b) r1.1 r2.1
  let r3 := mapAccum biquadStep mixed s.filt
  let r4 := genRun (envStep p) n s.env
  (List.zipWith (fun a b => a * b) r3.1 r4.1, ⟨r1.2, r2.2, r3.2, r4.2⟩)

/-- Full state of `ComplexGraphProcessor`: five oscillators, two filters,
two envelopes and the shared feedback delay line. -/
structure ComplexState (K : Type) where
  osc1 : OscState K
  osc2 : OscState K
  osc3 : OscState K
  osc4 : OscState K
  osc5 : OscState K
  filt1 : BiquadState K
  filt2 : BiquadState K
  env1 : EnvState K
  env2 : EnvState K
  del : DelayState K
  deriving Repr, DecidableEq

/-- `ComplexGraphProcessor::processBlock` (complex-graph/main.cpp lines
110-181), elaborated per sample: render the five oscillators (each scaled
by gain 0.3 via `applyGain`), mix oscillators 1-3 into the main buffer and
run filter 1 over it, mix oscillators 4-5 into a temp buffer and run
filter 2 over it, scale the two filtered mixes by the two envelopes
(one `getNextSample` of each envelope per sample), mix the results, and
finally run the feedback delay loop (feedback gain 0.3) over the sum. -/
def complexProcessBlock {K : Type} [LinearOrderedField K] [FloorRing K]
    (gsine gsaw : K → K) (twoPi : K) (p1 p2 : EnvParams K) (n : ℕ)
    (s : ComplexState K) : List K × ComplexState K :=
  let r1 := genRun (oscNext gsine twoPi) n s.osc1
  let r2 := genRun (oscNext gsaw twoPi) n s.osc2
  let r3 := genRun (oscNext gsine twoPi) n s.osc3
  let r4 := genRun (oscNext gsaw twoPi) n s.osc4
  let r5 := genRun (oscNext gsine twoPi) n s.osc5
  let b1 := r1.1.map (fun x => x * (3 / 10))
  let t1 := r2.1.map (fun x => x * (3 / 10))
  let t2 := r3.1.map (fun x => x * (3 / 10))
  let t3 := r4.1.map (fun x => x * (3 / 10))
  let t4 := r5.1.map (fun x => x * (3 / 10))
  let mix123 := List.zipWith (fun a b => a + b)
    (List.zipWith (fun a b => a + b) b1 t1) t2
  let rf1 := mapAccum biquadStep mix123 s.filt1
  let mix45 := List.zipWith (fun a b => a + b) t3 t4
  let rf2 := mapAccum biquadStep mix45 s.filt2
  let re1 := genRun (envStep p1) n s.env1
  let re2 := genRun (envStep p2) n s.env2
  let enveloped1 := List.zipWith (fun a b => a * b) rf1.1 re1.1
  let enveloped2 := List.zipWith (fun a b => a * b) rf2.1 re2.1
  let mixedAll := List.zipWith (fun a b => a + b) enveloped1 enveloped2
  let rd := mapAccum (delayStep (3 / 10)) mixedAll s.del
  (rd.1, ⟨r1.2, r2.2, r3.2, r4.2, r5.2, rf1.2, rf2.2, re1.2, re2.2, rd.2⟩)

/-- The benchmark driver loop as a relation between an initial processor
state, a list of block sizes, the concatenated emitted samples, and the
final state: one `cons` step per `processor.processBlock(buffer, ...)`
call.  Used to state that processing is deterministic. -/
inductive RunBlocksRel {K S : Type} (p : ℕ → S → List K × S) :
    S → List ℕ → List K → S → Prop
  | nil (s : S) : RunBlocksRel p s [] [] s
  | cons (s : S) (n : ℕ) (sizes : List ℕ) (rest : List K) (sf : S) :
      RunBlocksRel p (p n s).2 sizes rest sf →
      RunBlocksRel p s (n :: sizes) ((p n s).1 ++ rest) sf

/-- A concrete quiescent `ComplexGraphProcessor` state (all phases, levels,
histories and the delay buffer zero), used to evaluate the model at an
explicit input. -/
def complexZeroState : ComplexState ℚ :=
  ⟨⟨0, 0⟩, ⟨0, 0⟩, ⟨0, 0⟩, ⟨0, 0⟩, ⟨0, 0⟩,
    ⟨0, 0, 0, 0, 0, 0, 0, 0, 0⟩, ⟨0, 0, 0, 0, 0, 0, 0, 0, 0⟩,
    ⟨.idle, 0, 0, 0⟩, ⟨.idle, 0, 0, 0⟩, ⟨[], 0⟩⟩

/-- One buffer-level operation performed by a `processBlock` body, at the
granularity relevant to the allocation discipline: `alloc` constructs a
fresh `juce::AudioBuffer` (a heap allocation); every other operation only
reads or writes buffers that already exist. -/
inductive BufOp
  | alloc (channels samples : ℕ)
  | oscRender
  | gain
  | addInto
  | copyInto
  | filterRender
  | envMultiply
  | delayLoop
  deriving Repr, DecidableEq

/-- Whether a buffer operation allocates. -/
def BufOp.isAlloc : BufOp → Bool
  | .alloc _ _ => true
  | _ => false

/-- Buffer operations of `SimpleSineProcessor::processBlock`
(simple-sine/main.cpp lines 51-56): the oscillator renders into the
host-provided buffer; nothing is allocated. -/
def simpleSineProcessBlockOps : List BufOp :=
  [.oscRender]

/-- Buffer operations of `MediumGraphProcessor::processBlock`
(medium-graph/main.cpp lines 75-103) in source order: render the sine
oscillator into the host buffer; construct a fresh one-channel `sawBuffer`
of `numSamples` samples (`juce::AudioBuffer<float> sawBuffer(1, numSamples)`
at line 85); render the saw oscillator into it; `addFrom`; filter; envelope
multiply loop. -/
def mediumProcessBlockOps (n : ℕ) : List BufOp :=
  [.oscRender, .alloc 1 n, .oscRender, .addInto, .filterRender,
    .envMultiply]

/-- Buffer operations of `ComplexGraphProcessor::processBlock`
(complex-graph/main.cpp lines 110-181) in source order; the five temp
buffers it writes are the members sized once in `prepareToPlay`
(lines 100-105), so no operation allocates. -/
def complexProcessBlockOps : List BufOp :=
  [.oscRender, .gain, .oscRender, .gain, .oscRender, .gain, .oscRender,
    .gain, .oscRender, .gain, .addInto, .addInto, .filterRender, .copyInto,
    .addInto, .filterRender, .envMultiply, .addInto, .delayLoop]

/-- Configuration-error channel the spec prescribes for `prepare`
(spec sections 6 and 7).  The embedding of `prepareToPlay` uses it so that
"fails with a configuration error" is statable; the benchmark bodies never
produce one. -/
inductive ConfigError
  | invalidSampleRate
  | invalidBlockSize
  deriving Repr, DecidableEq

/-- `SimpleSineProcessor::prepareToPlay(sampleRate, samplesPerBlock)`
(simple-sine/main.cpp lines 38-47): the body builds the `ProcessSpec`,
prepares the oscillator (resetting its phase) and sets the frequency to
440 Hz, giving increment `twoPi·440/sampleRate`.  It contains no check of
either argument and has no failure path, so it returns a configured
oscillator for every input, including non-positive ones. -/
def simpleSinePrepareToPlay (twoPi sr : ℚ) (_samplesPerBlock : ℤ) :
    Except ConfigError (OscState ℚ) :=
  Except.ok ⟨0, twoPi * 440 / sr⟩

/-- Sample indices that the `ComplexGraphProcessor::processBlock` body
(complex-graph/main.cpp lines 110-181) touches in the five prepare-allocated
temp buffers, as pairs (buffer number 1-5, sample index), in source order:
`getSubBlock(0, numSamples)`, `applyGain(0, 0, numSamples, 0.3)`,
`copyFrom`/`addFrom(0, 0, …, 0, 0, numSamples)` and the per-sample envelope
loop each touch exactly the indices `0 … numSamples − 1` of the buffers
involved. -/
def complexTempBufferAccesses (n : ℕ) : List (ℕ × ℕ) :=
  ((List.range n).map (fun i => (1, i))) ++
  ((List.range n).map (fun i => (1, i))) ++
  ((List.range n).map (fun i => (2, i))) ++
  ((List.range n).map (fun i => (2, i))) ++
  ((List.range n).map (fun i => (3, i))) ++
  ((List.range n).map (fun i => (3, i))) ++
  ((List.range n).map (fun i => (4, i))) ++
  ((List.range n).map (fun i => (4, i))) ++
  ((List.range n).map (fun i => (1, i))) ++
  ((List.range n).map (fun i => (2, i))) ++
  ((List.range n).map (fun i => (5, i))) ++
  ((List.range n).map (fun i => (3, i))) ++
  ((List.range n).map (fun i => (5, i))) ++
  ((List.range n).map (fun i => (4, i))) ++
  ((List.range n).map (fun i => (5, i))) ++
  ((List.range n).map (fun i => (5, i))) ++
  ((List.range n).map (fun i => (5, i)))

end OscenBench

namespace OscenBench

/- Helper lemmas about the generic combinators. -/

theorem genRun_length {K S : Type} (f : S → K × S) :
    ∀ (n : ℕ) (s : S), (genRun f n s).1.length = n := by
  intro n
  induction n with
  | zero => intro s; rfl
  | succ n ih => intro s; simp [genRun, ih]

theorem genRun_add {K S : Type} (f : S → K × S) :
    ∀ (a b : ℕ) (s : S),
      genRun f (a + b) s =
        ((genRun f a s).1 ++ (genRun f b (genRun f a s).2).1,
          (genRun f b (genRun f a s).2).2) := by
  intro a
  induction a with
  | zero => intro b s; simp [genRun]
  | succ a ih =>
    intro b s
    have h : a + 1 + b = (a + b) + 1 := by omega
    rw [h]
    simp only [genRun, ih]
    rfl

theorem mapAccum_length {K S : Type} (f : S → K → K × S) :
    ∀ (xs : List K) (s : S), (mapAccum f xs s).1.length = xs.length := by
  intro xs
  induction xs with
  | nil => intro s; rfl
  | cons x xs ih => intro s; simp [mapAccum, ih]

theorem mapAccum_append {K S : Type} (f : S → K → K × S) :
    ∀ (xs ys : List K) (s : S),
      mapAccum f (xs ++ ys) s =
        ((mapAccum f xs s).1 ++ (mapAccum f ys (mapAccum f xs s).2).1,
          (mapAccum f ys (mapAccum f xs s).2).2) := by
  intro xs
  induction xs with
  | nil => intro ys s; simp [mapAccum]
  | cons x xs ih =>
    intro ys s
    simp only [List.cons_append, mapAccum, List.append_eq, ih]

theorem driverBlocksF_zero_remaining (fuel bs : ℕ) :
    driverBlocksF fuel bs 0 = [] := by
  cases fuel <;> simp [driverBlocksF]

theorem driverBlocksF_fuel_irrel :
    ∀ (rem fuel₁ fuel₂ bs : ℕ), rem ≤ fuel₁ → rem ≤ fuel₂ →
      driverBlocksF fuel₁ bs rem = driverBlocksF fuel₂ bs rem := by
  intro rem
  induction rem using Nat.strong_induction_on with
  | _ rem ih =>
    intro fuel₁ fuel₂ bs h₁ h₂
    match rem, h₁, h₂ with
    | 0, _, _ => rw [driverBlocksF_zero_remaining, driverBlocksF_zero_remaining]
    | rem + 1, h₁, h₂ =>
      match fuel₁, fuel₂, h₁, h₂ with
      | f₁ + 1, f₂ + 1, h₁, h₂ =>
        by_cases hbs : bs = 0
        · simp [driverBlocksF, hbs]
        · have hbs' : 0 < bs := Nat.pos_of_ne_zero hbs
          have hlt : rem + 1 - min bs (rem + 1) < rem + 1 := by omega
          have hle₁ : rem + 1 - min bs (rem + 1) ≤ f₁ := by omega
          have hle₂ : rem + 1 - min bs (rem + 1) ≤ f₂ := by omega
          simp only [driverBlocksF, hbs, or_false, if_neg (Nat.succ_ne_zero rem)]
          rw [ih _ hlt _ _ bs hle₁ hle₂]

theorem driverBlocks_closed_form :
    ∀ (n bs : ℕ), 0 < bs →
      driverBlocks bs n =
        List.replicate (n / bs) bs ++ (if n % bs = 0 then [] else [n % bs]) := by
  intro n
  induction n using Nat.strong_induction_on with
  | _ n ih =>
    intro bs hbs
    match n with
    | 0 => simp [driverBlocks, driverBlocksF]
    | n + 1 =>
      by_cases hlt : n + 1 < bs
      · have hmin : min bs (n + 1) = n + 1 := by omega
        have hdiv : (n + 1) / bs = 0 := Nat.div_eq_of_lt hlt
        have hmod : (n + 1) % bs = n + 1 := Nat.mod_eq_of_lt hlt
        have hbs0 : ¬bs = 0 := by omega
        simp [driverBlocks, driverBlocksF, hmin, hdiv, hmod,
          driverBlocksF_zero_remaining, hbs0]
      · have hble : bs ≤ n + 1 := by omega
        have hmin : min bs (n + 1) = bs := by omega
        have hrest : n + 1 - bs < n + 1 := by omega
        have hfuel : n + 1 - bs ≤ n := by omega
        have step :
            driverBlocks bs (n + 1) =
              bs :: driverBlocks bs (n + 1 - bs) := by
          simp only [driverBlocks, driverBlocksF, hmin,
            if_neg (by omega : ¬(n + 1 = 0 ∨ bs = 0))]
          rw [driverBlocksF_fuel_irrel (n + 1 - bs) n (n + 1 - bs) bs hfuel
            (le_refl _)]
        rw [step, ih _ hrest bs hbs]
        have hdiv : (n + 1) / bs = (n + 1 - bs) / bs + 1 :=
          Nat.div_eq_sub_div hbs hble
        have hmod : (n + 1) % bs = (n + 1 - bs) % bs := Nat.mod_eq_sub_mod hble
        rw [hdiv, hmod, List.replicate_succ, List.cons_append]

/-- Claim C9: the benchmark driver loop
(`runBenchmark` in `simple-sine/main.cpp` lines 89-97 and
`complex-graph/main.cpp` lines 238-246) terminates for
`numSamples = 441000`, `blockSize = 512`: it issues exactly 862 blocks,
861 of 512 samples and a final one of 168; every block is nonempty
(so `samplesProcessed` strictly increases); the block sizes sum to exactly
441000, and every partial sum stays at most 441000 (so `samplesProcessed`
ends exactly at `numSamples` and never exceeds it). -/
theorem driver_loop_termination :
    driverBlocks 512 441000 = List.replicate 861 512 ++ [168] ∧
    (driverBlocks 512 441000).length = 862 ∧
    (driverBlocks 512 441000).sum = 441000 ∧
    (∀ b ∈ driverBlocks 512 441000, 0 < b) ∧
    (∀ k : ℕ, ((driverBlocks 512 441000).take k).sum ≤ 441000) := by
  have h1 : (441000 : ℕ) / 512 = 861 := by norm_num
  have h2 : (441000 : ℕ) % 512 = 168 := by norm_num
  have hform : driverBlocks 512 441000 = List.replicate 861 512 ++ [168] := by
    rw [driverBlocks_closed_form 441000 512 (by norm_num), h1, h2]
    norm_num
  have hsum : (driverBlocks 512 441000).sum = 441000 := by
    rw [hform, List.sum_append, List.sum_replicate, smul_eq_mul]
    norm_num
  refine ⟨hform, ?_, hsum, ?_, ?_⟩
  · rw [hform, List.length_append, List.length_replicate,
      List.length_singleton]
  · intro b hb
    rw [hform] at hb
    rcases List.mem_append.mp hb with h | h
    · rw [List.eq_of_mem_replicate h]; norm_num
    · simp only [List.mem_singleton] at h; omega
  · intro k
    have hsplit :
        ((driverBlocks 512 441000).take k).sum +
          ((driverBlocks 512 441000).drop k).sum = 441000 := by
      rw [← List.sum_append, List.take_append_drop, hsum]
    omega

theorem runBlocks_eq_single {K S : Type} (p : ℕ → S → List K × S)
    (h0 : ∀ s, p 0 s = ([], s))
    (hsplit : ∀ a b s, p (a + b) s =
      ((p a s).1 ++ (p b (p a s).2).1, (p b (p a s).2).2)) :
    ∀ (sizes : List ℕ) (s : S), runBlocks p sizes s = p sizes.sum s := by
  intro sizes
  induction sizes with
  | nil => intro s; simp [runBlocks, h0]
  | cons n rest ih =>
    intro s
    simp only [runBlocks, List.sum_cons, hsplit n rest.sum s, ih]

/- Lemmas about the feedback delay line (claim C2). -/

theorem getD_replicate_zero {K : Type} [LinearOrderedField K] :
    ∀ (m r : ℕ), (List.replicate m (0 : K)).getD r 0 = 0 := by
  intro m
  induction m with
  | zero => intro r; cases r <;> rfl
  | succ m ih =>
    intro r
    cases r with
    | zero => rfl
    | succ r => simp only [List.replicate_succ, List.getD_cons_succ]; exact ih r

theorem set_replicate_zero {K : Type} [LinearOrderedField K] :
    ∀ (m j : ℕ), (List.replicate m (0 : K)).set j 0 = List.replicate m 0 := by
  intro m
  induction m with
  | zero => intro j; rfl
  | succ m ih =>
    intro j
    cases j with
    | zero => simp [List.replicate_succ]
    | succ j => simp [List.replicate_succ, ih]

theorem set_head_replicate {K : Type} [LinearOrderedField K]
    (D : ℕ) (hD : 0 < D) (v : K) :
    (List.replicate D (0 : K)).set 0 v = v :: List.replicate (D - 1) 0 := by
  match D, hD with
  | D + 1, _ => simp [List.replicate_succ]

theorem map_range_getD {K : Type} (f : ℕ → K) (n j : ℕ) (d : K)
    (h : j < n) : (((List.range n).map f).getD j d) = f j := by
  rw [List.getD_eq_getElem?_getD, List.getElem?_map, List.getElem?_range h]
  rfl

theorem getD_cons_pos {K : Type} (a : K) (l : List K) (r : ℕ)
    (hr : 0 < r) (d : K) : (a :: l).getD r d = l.getD (r - 1) d := by
  match r, hr with
  | r + 1, _ => rfl

theorem set_cons_pos {K : Type} (a v : K) (l : List K) (r : ℕ)
    (hr : 0 < r) : (a :: l).set r v = a :: l.set (r - 1) v := by
  match r, hr with
  | r + 1, _ => rfl

theorem delay_impulse_zeros {K : Type} [LinearOrderedField K]
    (g : K) (D : ℕ) (hD : 0 < D) :
    ∀ (L m p : ℕ), D * p < m → m ≤ D * (p + 1) →
      (mapAccum (delayStep g) (List.replicate L (0 : K))
          ⟨g ^ p :: List.replicate (D - 1) 0, m % D⟩).1 =
        (List.range L).map
          (fun j => if D ∣ (m + j) then g ^ ((m + j) / D) else 0) := by
  intro L
  induction L with
  | zero => intro m p _ _; rfl
  | succ L ih =>
    intro m p hlo hhi
    have hlen : (g ^ p :: List.replicate (D - 1) (0 : K)).length = D := by
      simp [List.length_replicate]; omega
    rw [List.replicate_succ, List.range_succ_eq_map]
    by_cases hr : m % D = 0
    · rcases Nat.dvd_of_mod_eq_zero hr with ⟨q, hq⟩
      have hpq : p < q := by
        rw [hq] at hlo
        exact Nat.lt_of_mul_lt_mul_left hlo
      have hqp : q ≤ p + 1 := by
        rw [hq] at hhi
        exact Nat.le_of_mul_le_mul_left hhi hD
      have hm : m = D * (p + 1) := by rw [hq]; congr 1; omega
      have hidx : (0 + 1) % D = (m + 1) % D :=
        (Nat.ModEq.add_right 1
          ((Nat.modEq_zero_iff_dvd).mpr ⟨p + 1, hm⟩)).symm
      have hv : (0 : K) + g * g ^ p = g ^ (p + 1) := by ring
      have hstep :
          delayStep g ⟨g ^ p :: List.replicate (D - 1) 0, m % D⟩ (0 : K) =
            (g ^ (p + 1),
              ⟨g ^ (p + 1) :: List.replicate (D - 1) 0, (m + 1) % D⟩) := by
        simp only [delayStep, hr, List.getD_cons_zero, hlen, hv,
          List.set_cons_zero, Prod.mk.injEq, DelayState.mk.injEq]
        exact ⟨trivial, trivial, hidx⟩
      simp only [mapAccum, hstep]
      have hout :
          (if D ∣ (m + 0) then g ^ ((m + 0) / D) else (0 : K)) = g ^ (p + 1) := by
        rw [Nat.add_zero, hm, if_pos ⟨p + 1, rfl⟩, Nat.mul_div_cancel_left _ hD]
      rw [List.map_cons, hout]
      congr 1
      have hlo' : D * (p + 1) < m + 1 := by rw [← hm]; exact Nat.lt_succ_self m
      have hhi' : m + 1 ≤ D * (p + 1 + 1) := by
        rw [Nat.mul_succ, ← hm]; omega
      rw [ih (m + 1) (p + 1) hlo' hhi', List.map_map]
      congr 1
      funext j
      have hj : m + 1 + j = m + (j + 1) := by omega
      simp [Function.comp, hj]
    · have hrpos : 0 < m % D := Nat.pos_of_ne_zero hr
      have hndvd : ¬ D ∣ m := fun h => hr (Nat.mod_eq_zero_of_dvd h)
      have hmne : m ≠ D * (p + 1) := by
        intro h
        exact hr (by rw [h]; exact Nat.mul_mod_right D (p + 1))
      have hidx : (m % D + 1) % D = (m + 1) % D :=
        Nat.ModEq.add_right 1 (Nat.mod_modEq m D)
      have hstep :
          delayStep g ⟨g ^ p :: List.replicate (D - 1) 0, m % D⟩ (0 : K) =
            ((0 : K),
              ⟨g ^ p :: List.replicate (D - 1) 0, (m + 1) % D⟩) := by
        simp only [delayStep, hlen, getD_cons_pos _ _ _ hrpos,
          getD_replicate_zero, mul_zero, add_zero,
          set_cons_pos _ _ _ _ hrpos, set_replicate_zero, Prod.mk.injEq,
          DelayState.mk.injEq]
        exact ⟨trivial, trivial, hidx⟩
      simp only [mapAccum, hstep]
      have hout :
          (if D ∣ (m + 0) then g ^ ((m + 0) / D) else (0 : K)) = 0 := by
        rw [Nat.add_zero, if_neg hndvd]
      rw [List.map_cons, hout]
      congr 1
      rw [ih (m + 1) p (Nat.lt_succ_of_lt hlo)
        (Nat.lt_of_le_of_ne hhi hmne), List.map_map]
      congr 1
      funext j
      have hj : m + 1 + j = m + (j + 1) := by omega
      simp [Function.comp, hj]

/-- Claim C2: feeding a single unit impulse through the feedback delay stage
of `ComplexGraphProcessor::processBlock` (the read-then-write loop at
`complex-graph/main.cpp` lines 171-180, delay buffer of `D` samples as
allocated in `prepareToPlay`, feedback gain `g`) produces output 1 at
index 0 (the passthrough term), output exactly `g ^ j` at every index
`j·D`, and output 0 at every other index. -/
theorem delay_impulse_response (g : ℚ) (D n k : ℕ) (hD : 0 < D)
    (hk : k ≤ n) :
    ((mapAccum (delayStep g) ((1 : ℚ) :: List.replicate n 0)
        ⟨List.replicate D 0, 0⟩).1).getD k 0 =
      if D ∣ k then g ^ (k / D) else 0 := by
  have hstep0 :
      delayStep g ⟨List.replicate D (0 : ℚ), 0⟩ (1 : ℚ) =
        ((1 : ℚ), ⟨(1 : ℚ) :: List.replicate (D - 1) 0, 1 % D⟩) := by
    simp only [delayStep, getD_replicate_zero, mul_zero, add_zero,
      List.length_replicate, set_head_replicate D hD, Prod.mk.injEq,
      DelayState.mk.injEq]
  have hz := delay_impulse_zeros g D hD n 1 0
    (by simp only [Nat.mul_zero]; omega)
    (by simp only [Nat.zero_add, Nat.mul_one]; exact hD)
  rw [pow_zero] at hz
  simp only [mapAccum, hstep0]
  rw [hz]
  cases k with
  | zero =>
    rw [List.getD_cons_zero, if_pos (dvd_zero D), Nat.zero_div, pow_zero]
  | succ j =>
    rw [List.getD_cons_succ, map_range_getD _ n j 0 (by omega)]
    rw [Nat.add_comm 1 j]

/-- Witness for `delay_impulse_response` at `D = 2`, `g = 1/2`, an impulse
followed by 5 zeros, inspected at index `k = 4 = 2·D`: the hypotheses hold
and the output there is `(1/2)^2`. -/
theorem delay_impulse_response_check :
    0 < 2 ∧ 4 ≤ 5 ∧
      ((mapAccum (delayStep ((1 : ℚ)/2)) ((1 : ℚ) :: List.replicate 5 0)
          ⟨List.replicate 2 0, 0⟩).1).getD 4 0 =
        (if 2 ∣ 4 then ((1 : ℚ)/2) ^ (4 / 2) else 0) :=
  ⟨by decide, by decide,
    delay_impulse_response ((1 : ℚ)/2) 2 5 4 (by decide) (by decide)⟩

/- Lemmas about the oscillator phase accumulator (claims C8 and C1). -/

theorem wrapPhase_eq_fract {K : Type} [LinearOrderedField K] [FloorRing K]
    (twoPi x : K) (h : twoPi ≠ 0) :
    wrapPhase twoPi x = twoPi * Int.fract (x / twoPi) := by
  rw [wrapPhase, Int.fract, mul_sub, mul_comm twoPi (x / twoPi),
    div_mul_cancel₀ x h]

theorem wrapPhase_nonneg {K : Type} [LinearOrderedField K] [FloorRing K]
    (twoPi x : K) (h : 0 < twoPi) : 0 ≤ wrapPhase twoPi x := by
  rw [wrapPhase_eq_fract twoPi x (ne_of_gt h)]
  exact mul_nonneg (le_of_lt h) (Int.fract_nonneg _)

theorem wrapPhase_lt {K : Type} [LinearOrderedField K] [FloorRing K]
    (twoPi x : K) (h : 0 < twoPi) : wrapPhase twoPi x < twoPi := by
  rw [wrapPhase_eq_fract twoPi x (ne_of_gt h)]
  calc twoPi * Int.fract (x / twoPi) < twoPi * 1 :=
        (mul_lt_mul_left h).mpr (Int.fract_lt_one _)
    _ = twoPi := mul_one twoPi

theorem oscAdvance_iterate_inc {K : Type} [LinearOrderedField K]
    [FloorRing K] (twoPi : K) :
    ∀ (k : ℕ) (s : OscState K), ((oscAdvance twoPi)^[k] s).inc = s.inc := by
  intro k
  induction k with
  | zero => intro s; rfl
  | succ k ih =>
    intro s
    rw [Function.iterate_succ_apply, ih]
    rfl

theorem oscAdvance_iterate_phase_modeq {K : Type} [LinearOrderedField K]
    [FloorRing K] (twoPi inc : K) :
    ∀ k : ℕ, ∃ m : ℤ,
      ((oscAdvance twoPi)^[k] (⟨0, inc⟩ : OscState K)).phase =
        (k : K) * inc - (m : K) * twoPi := by
  intro k
  induction k with
  | zero => exact ⟨0, by simp⟩
  | succ k ih =>
    rcases ih with ⟨m, hm⟩
    set s := (oscAdvance twoPi)^[k] (⟨0, inc⟩ : OscState K) with hs
    refine ⟨m + ⌊(s.phase + s.inc) / twoPi⌋, ?_⟩
    rw [Function.iterate_succ_apply']
    rw [← hs]
    show wrapPhase twoPi (s.phase + s.inc) = _
    rw [wrapPhase, hm, oscAdvance_iterate_inc twoPi k ⟨0, inc⟩]
    push_cast
    ring

theorem genRun_getD {K S : Type} (f : S → K × S) :
    ∀ (n k : ℕ) (s : S) (d : K), k < n →
      (genRun f n s).1.getD k d = (f ((fun t => (f t).2)^[k] s)).1 := by
  intro n
  induction n with
  | zero => intro k s d h; omega
  | succ n ih =>
    intro k s d h
    cases k with
    | zero => rfl
    | succ k =>
      show (genRun f n (f s).2).1.getD k d = _
      rw [ih k (f s).2 d (by omega), Function.iterate_succ_apply]

/-- Claim C8: each oscillator sample advances the phase by exactly the
per-sample increment `2π·f/sr` and then wraps it modulo 2π (the floor-based
modulo of `wrapPhase`), and however many samples are generated the stored
phase lies in `[0, 2π)` after every sample. -/
theorem phase_wrap_invariant (g : ℝ → ℝ) (f sr p : ℝ) (s : OscState ℝ)
    (n : ℕ) :
    ((oscNext g (2 * Real.pi) ⟨p, 2 * Real.pi * f / sr⟩).2).phase =
        p + 2 * Real.pi * f / sr -
          2 * Real.pi *
            ((⌊(p + 2 * Real.pi * f / sr) / (2 * Real.pi)⌋ : ℤ) : ℝ) ∧
    0 ≤ ((oscAdvance (2 * Real.pi))^[n + 1] s).phase ∧
    ((oscAdvance (2 * Real.pi))^[n + 1] s).phase < 2 * Real.pi := by
  refine ⟨rfl, ?_, ?_⟩
  · rw [Function.iterate_succ_apply']
    exact wrapPhase_nonneg _ _ Real.two_pi_pos
  · rw [Function.iterate_succ_apply']
    exact wrapPhase_lt _ _ Real.two_pi_pos

theorem driverBlocks_sum_441000 : (driverBlocks 512 441000).sum = 441000 := by
  have h1 : (441000 : ℕ) / 512 = 861 := by norm_num
  have h2 : (441000 : ℕ) % 512 = 168 := by norm_num
  rw [driverBlocks_closed_form 441000 512 (by norm_num), h1, h2]
  norm_num [List.sum_append, List.sum_replicate, smul_eq_mul]

theorem sin_oscillator_sample (inc : ℝ) (k : ℕ) :
    Real.sin (((oscAdvance (2 * Real.pi))^[k] (⟨0, inc⟩ : OscState ℝ)).phase)
      = Real.sin ((k : ℝ) * inc) := by
  rcases oscAdvance_iterate_phase_modeq (2 * Real.pi) inc k with ⟨m, hm⟩
  rw [hm, Real.sin_sub_int_mul_two_pi]

/-- Claim C1: in the simple-sine benchmark (oscillator at 440 Hz, sample
rate 44100, driven by the benchmark loop as 862 blocks of 512 with a final
block of 168) the concatenated output has exactly 441000 samples, the
sample at index 0 is `sin 0 = 0`, and the sample at index `k` is exactly
`sin (2π·440·k/44100)` (the floating-point code attains this within
rounding tolerance). -/
theorem simple_sine_benchmark_spec (k : ℕ) (hk : k < 441000) :
    (runBlocks (simpleSineProcessBlock Real.sin (2 * Real.pi))
        (driverBlocks 512 441000) ⟨0, 2 * Real.pi * 440 / 44100⟩).1.length
      = 441000 ∧
    (runBlocks (simpleSineProcessBlock Real.sin (2 * Real.pi))
        (driverBlocks 512 441000) ⟨0, 2 * Real.pi * 440 / 44100⟩).1.getD 0 0
      = 0 ∧
    (runBlocks (simpleSineProcessBlock Real.sin (2 * Real.pi))
        (driverBlocks 512 441000) ⟨0, 2 * Real.pi * 440 / 44100⟩).1.getD k 0
      = Real.sin (2 * Real.pi * 440 * (k : ℝ) / 44100) := by
  have hone := runBlocks_eq_single
    (simpleSineProcessBlock Real.sin (2 * Real.pi))
    (fun s => rfl)
    (fun a b s => genRun_add (oscNext Real.sin (2 * Real.pi)) a b s)
    (driverBlocks 512 441000) ⟨0, 2 * Real.pi * 440 / 44100⟩
  rw [hone, driverBlocks_sum_441000]
  simp only [simpleSineProcessBlock]
  have hstep : (fun t => (oscNext Real.sin (2 * Real.pi) t).2) =
      oscAdvance (2 * Real.pi) := rfl
  have hget : ∀ j : ℕ, j < 441000 →
      (genRun (oscNext Real.sin (2 * Real.pi)) 441000
          (⟨0, 2 * Real.pi * 440 / 44100⟩ : OscState ℝ)).1.getD j 0 =
        Real.sin ((j : ℝ) * (2 * Real.pi * 440 / 44100)) := by
    intro j hj
    rw [show (genRun (oscNext Real.sin (2 * Real.pi)) 441000
          (⟨0, 2 * Real.pi * 440 / 44100⟩ : OscState ℝ)) =
        genRun (oscNext Real.sin (2 * Real.pi)) 441000
          ⟨0, 2 * Real.pi * 440 / 44100⟩ from rfl,
      genRun_getD _ 441000 j _ 0 hj, hstep]
    exact sin_oscillator_sample (2 * Real.pi * 440 / 44100) j
  refine ⟨genRun_length _ 441000 _, ?_, ?_⟩
  · rw [hget 0 (by norm_num)]
    norm_num
  · rw [hget k hk]
    congr 1
    ring

/- Lemmas about the ADSR envelope (claim C6). -/

theorem envStep_sustain {K : Type} [LinearOrderedField K] (p : EnvParams K)
    (s : EnvState K) (hs : s.phase = .sustain) :
    envStep p s = (p.sustain, ⟨.sustain, p.sustain, s.count, s.start⟩) := by
  obtain ⟨ph, l, c, st⟩ := s
  cases hs
  rfl

/-- Claim C6: for an envelope that has received `noteOn` and no `noteOff`,
once the decay phase has completed — i.e. the state machine is in Sustain —
`getNextSample` returns exactly `sustainLevel` on each of the next `n`
samples for every `n`, and the envelope is still in Sustain afterwards: it
never leaves the Sustain state without an explicit `noteOff`. -/
theorem sustain_holds_forever (p : EnvParams ℚ) (s : EnvState ℚ) (n : ℕ)
    (hs : s.phase = .sustain) :
    (genRun (envStep p) n s).1 = List.replicate n p.sustain ∧
    ((genRun (envStep p) n s).2).phase = .sustain := by
  induction n generalizing s with
  | zero => exact ⟨rfl, hs⟩
  | succ n ih =>
    have h := envStep_sustain p s hs
    have ih' := ih ⟨.sustain, p.sustain, s.count, s.start⟩ rfl
    simp only [genRun, h]
    exact ⟨by rw [ih'.1, List.replicate_succ], ih'.2⟩

/-- Witness for `sustain_holds_forever`: a sustaining envelope with
`sustainLevel = 7/10` emits `7/10` three times and stays in Sustain. -/
theorem sustain_holds_forever_check :
    ((⟨.sustain, 7/10, 0, 0⟩ : EnvState ℚ)).phase = .sustain ∧
    (genRun (envStep ⟨441, 4410, 7/10, 8820⟩) 3
        (⟨.sustain, 7/10, 0, 0⟩ : EnvState ℚ)).1 =
      List.replicate 3 ((7 : ℚ)/10) ∧
    ((genRun (envStep ⟨441, 4410, 7/10, 8820⟩) 3
        (⟨.sustain, 7/10, 0, 0⟩ : EnvState ℚ)).2).phase = .sustain :=
  ⟨rfl,
    (sustain_holds_forever ⟨441, 4410, 7/10, 8820⟩ _ 3 rfl).1,
    (sustain_holds_forever ⟨441, 4410, 7/10, 8820⟩ _ 3 rfl).2⟩

/- Block-splitting lemmas for the two graph processors (claim C3). -/

theorem zipWith_append_eq {K : Type} (f : K → K → K) :
    ∀ (l1 l1' l2 l2' : List K), l1.length = l1'.length →
      List.zipWith f (l1 ++ l2) (l1' ++ l2') =
        List.zipWith f l1 l1' ++ List.zipWith f l2 l2' := by
  intro l1
  induction l1 with
  | nil =>
    intro l1' l2 l2' h
    cases l1' with
    | nil => rfl
    | cons y ys => simp at h
  | cons x xs ih =>
    intro l1' l2 l2' h
    cases l1' with
    | nil => simp at h
    | cons y ys =>
      simp only [List.cons_append, List.zipWith_cons_cons]
      rw [ih ys l2 l2' (by simpa using h)]

theorem mediumProcessBlock_zero {K : Type} [LinearOrderedField K]
    [FloorRing K] (gsine gsaw : K → K) (twoPi : K) (p : EnvParams K)
    (s : MediumState K) :
    mediumProcessBlock gsine gsaw twoPi p 0 s = ([], s) := rfl

theorem mediumProcessBlock_add {K : Type} [LinearOrderedField K]
    [FloorRing K] (gsine gsaw : K → K) (twoPi : K) (p : EnvParams K)
    (a b : ℕ) (s : MediumState K) :
    mediumProcessBlock gsine gsaw twoPi p (a + b) s =
      ((mediumProcessBlock gsine gsaw twoPi p a s).1 ++
          (mediumProcessBlock gsine gsaw twoPi p b
            (mediumProcessBlock gsine gsaw twoPi p a s).2).1,
        (mediumProcessBlock gsine gsaw twoPi p b
          (mediumProcessBlock gsine gsaw twoPi p a s).2).2) := by
  simp only [mediumProcessBlock]
  rw [genRun_add (oscNext gsine twoPi) a b s.sine,
    genRun_add (oscNext gsaw twoPi) a b s.saw,
    genRun_add (envStep p) a b s.env]
  rw [zipWith_append_eq _ _ _ _ _
    (by rw [genRun_length, genRun_length])]
  rw [mapAccum_append]
  rw [zipWith_append_eq _ _ _ _ _
    (by rw [mapAccum_length, genRun_length, List.length_zipWith,
      genRun_length, genRun_length, Nat.min_self])]

theorem complexProcessBlock_zero {K : Type} [LinearOrderedField K]
    [FloorRing K] (gsine gsaw : K → K) (twoPi : K) (p1 p2 : EnvParams K)
    (s : ComplexState K) :
    complexProcessBlock gsine gsaw twoPi p1 p2 0 s = ([], s) := rfl

theorem complexProcessBlock_add {K : Type} [LinearOrderedField K]
    [FloorRing K] (gsine gsaw : K → K) (twoPi : K) (p1 p2 : EnvParams K)
    (a b : ℕ) (s : ComplexState K) :
    complexProcessBlock gsine gsaw twoPi p1 p2 (a + b) s =
      ((complexProcessBlock gsine gsaw twoPi p1 p2 a s).1 ++
          (complexProcessBlock gsine gsaw twoPi p1 p2 b
            (complexProcessBlock gsine gsaw twoPi p1 p2 a s).2).1,
        (complexProcessBlock gsine gsaw twoPi p1 p2 b
          (complexProcessBlock gsine gsaw twoPi p1 p2 a s).2).2) := by
  simp only [complexProcessBlock]
  rw [genRun_add (oscNext gsine twoPi) a b s.osc1,
    genRun_add (oscNext gsaw twoPi) a b s.osc2,
    genRun_add (oscNext gsine twoPi) a b s.osc3,
    genRun_add (oscNext gsaw twoPi) a b s.osc4,
    genRun_add (oscNext gsine twoPi) a b s.osc5,
    genRun_add (envStep p1) a b s.env1,
    genRun_add (envStep p2) a b s.env2]
  simp only [List.map_append]
  rw [zipWith_append_eq _ _ _ _ _
    (by simp [mapAccum_length, genRun_length, List.length_zipWith,
      List.length_map])]
  rw [zipWith_append_eq _ _ _ _ _
    (by simp [mapAccum_length, genRun_length, List.length_zipWith,
      List.length_map])]
  rw [mapAccum_append]
  rw [zipWith_append_eq _ _ _ _ _
    (by simp [mapAccum_length, genRun_length, List.length_zipWith,
      List.length_map])]
  rw [zipWith_append_eq _ _ _ _ _
    (by simp [mapAccum_length, genRun_length, List.length_zipWith,
      List.length_map])]
  rw [mapAccum_append]
  rw [zipWith_append_eq _ _ _ _ _
    (by simp [mapAccum_length, genRun_length, List.length_zipWith,
      List.length_map])]
  rw [zipWith_append_eq _ _ _ _ _
    (by simp [mapAccum_length, genRun_length, List.length_zipWith,
      List.length_map])]
  rw [mapAccum_append]

/-- Claim C3: for both graph processors (`MediumGraphProcessor` and
`ComplexGraphProcessor`), with any fixed waveforms, parameters and initial
state, running the samples split into any sequence of blocks produces
exactly the output (and final state) of one single call over the total
number of samples: state persistence makes block splitting transparent.
In particular blocks of 512 versus one block of 441000 agree. -/
theorem block_splitting_transparent (gsine gsaw : ℚ → ℚ) (twoPi : ℚ)
    (p p1 p2 : EnvParams ℚ) (sizes : List ℕ) (sm : MediumState ℚ)
    (sc : ComplexState ℚ) :
    runBlocks (mediumProcessBlock gsine gsaw twoPi p) sizes sm =
      mediumProcessBlock gsine gsaw twoPi p sizes.sum sm ∧
    runBlocks (complexProcessBlock gsine gsaw twoPi p1 p2) sizes sc =
      complexProcessBlock gsine gsaw twoPi p1 p2 sizes.sum sc :=
  ⟨runBlocks_eq_single _ (mediumProcessBlock_zero gsine gsaw twoPi p)
      (mediumProcessBlock_add gsine gsaw twoPi p) sizes sm,
    runBlocks_eq_single _ (complexProcessBlock_zero gsine gsaw twoPi p1 p2)
      (complexProcessBlock_add gsine gsaw twoPi p1 p2) sizes sc⟩

/- Determinism of block processing (claim C7). -/

theorem runBlocksRel_deterministic {K S : Type} (p : ℕ → S → List K × S) :
    ∀ (sizes : List ℕ) (s : S) (o1 o2 : List K) (s1 s2 : S),
      RunBlocksRel p s sizes o1 s1 → RunBlocksRel p s sizes o2 s2 →
      o1 = o2 ∧ s1 = s2 := by
  intro sizes
  induction sizes with
  | nil =>
    intro s o1 o2 s1 s2 h1 h2
    cases h1
    cases h2
    exact ⟨rfl, rfl⟩
  | cons n rest ih =>
    intro s o1 o2 s1 s2 h1 h2
    cases h1 with
    | cons _ _ _ rest1 _ hr1 =>
      cases h2 with
      | cons _ _ _ rest2 _ hr2 =>
        rcases ih (p n s).2 rest1 rest2 s1 s2 hr1 hr2 with ⟨ho, hs⟩
        exact ⟨by rw [ho], hs⟩

/-- Claim C7: block processing is deterministic.  Any two driver runs of
`ComplexGraphProcessor::processBlock` (or of the simple-sine processor)
from the same initial state over the same sequence of block sizes — in
particular two full 441000-sample runs in blocks of 512, or two single
calls with the same block size — emit identical output sequences and end
in identical states. -/
theorem processBlock_deterministic (gsine gsaw gs : ℚ → ℚ) (twoPi : ℚ)
    (p1 p2 : EnvParams ℚ) (sizes sizes' : List ℕ) (s : ComplexState ℚ)
    (t : OscState ℚ) (o1 o2 o3 o4 : List ℚ) (s1 s2 : ComplexState ℚ)
    (t1 t2 : OscState ℚ)
    (h1 : RunBlocksRel (complexProcessBlock gsine gsaw twoPi p1 p2)
      s sizes o1 s1)
    (h2 : RunBlocksRel (complexProcessBlock gsine gsaw twoPi p1 p2)
      s sizes o2 s2)
    (h3 : RunBlocksRel (simpleSineProcessBlock gs twoPi) t sizes' o3 t1)
    (h4 : RunBlocksRel (simpleSineProcessBlock gs twoPi) t sizes' o4 t2) :
    (o1 = o2 ∧ s1 = s2) ∧ (o3 = o4 ∧ t1 = t2) :=
  ⟨runBlocksRel_deterministic _ sizes s o1 o2 s1 s2 h1 h2,
    runBlocksRel_deterministic _ sizes' t o3 o4 t1 t2 h3 h4⟩

/-- Witness for `processBlock_deterministic`: the four run-relation
hypotheses hold for empty runs from concrete states, and the conclusion
follows by applying the theorem there. -/
theorem processBlock_deterministic_check :
    RunBlocksRel
      (complexProcessBlock (fun x => x) (fun x => x) 6 ⟨1, 1, 1, 1⟩
        ⟨1, 1, 1, 1⟩) complexZeroState [] [] complexZeroState ∧
    RunBlocksRel (simpleSineProcessBlock (fun x => x) 6)
      (⟨0, 0⟩ : OscState ℚ) [] [] ⟨0, 0⟩ ∧
    ((([] : List ℚ) = [] ∧ complexZeroState = complexZeroState) ∧
      (([] : List ℚ) = [] ∧ (⟨0, 0⟩ : OscState ℚ) = ⟨0, 0⟩)) :=
  ⟨RunBlocksRel.nil complexZeroState,
    RunBlocksRel.nil (⟨0, 0⟩ : OscState ℚ),
    processBlock_deterministic (fun x => x) (fun x => x) (fun x => x) 6
      ⟨1, 1, 1, 1⟩ ⟨1, 1, 1, 1⟩ [] [] complexZeroState
      (⟨0, 0⟩ : OscState ℚ) [] [] [] []
      complexZeroState complexZeroState (⟨0, 0⟩ : OscState ℚ)
      (⟨0, 0⟩ : OscState ℚ)
      (RunBlocksRel.nil complexZeroState)
      (RunBlocksRel.nil complexZeroState)
      (RunBlocksRel.nil (⟨0, 0⟩ : OscState ℚ))
      (RunBlocksRel.nil (⟨0, 0⟩ : OscState ℚ))⟩

/- Allocation profile of the processBlock bodies (claim C4). -/

/-- Counterexample to claim C4 as stated: it is not true that no allocation
occurs inside `processBlock` for every benchmark graph —
`MediumGraphProcessor::processBlock` constructs a fresh saw scratch buffer
(`juce::AudioBuffer<float> sawBuffer(1, numSamples)`, medium-graph/main.cpp
line 85) on every call, here at block size 512. -/
theorem medium_graph_allocates :
    (mediumProcessBlockOps 512).any BufOp.isAlloc = true ∧
    BufOp.alloc 1 512 ∈ mediumProcessBlockOps 512 := by
  exact ⟨rfl, by decide⟩

/-- Claim C4 amended: the simple-sine and complex-graph `processBlock`
bodies perform no buffer allocation (the complex graph works entirely in
the five temp buffers allocated at `prepareToPlay` time and reused across
calls), but the medium-graph `processBlock` allocates exactly one fresh
buffer — the one-channel saw scratch buffer of the block's size — on every
call. -/
theorem processBlock_allocation_profile (n : ℕ) :
    (simpleSineProcessBlockOps.filter BufOp.isAlloc = [] ∧
      complexProcessBlockOps.filter BufOp.isAlloc = []) ∧
    (mediumProcessBlockOps n).filter BufOp.isAlloc = [BufOp.alloc 1 n] :=
  ⟨⟨rfl, rfl⟩, rfl⟩

/- Behaviour of prepareToPlay on invalid configurations (claim C5). -/

/-- Counterexample to claim C5 as stated: `prepareToPlay` does not fail
with a configuration error when `sampleRate ≤ 0` or `maxBlockSize ≤ 0` —
called with sample rate −1 and block size −1 it succeeds, returning the
oscillator configured at 440 Hz (with a meaningless negative increment),
so no configuration error is detected at prepare time. -/
theorem prepare_accepts_invalid_config :
    simpleSinePrepareToPlay 6 (-1) (-1) =
      Except.ok (⟨0, -2640⟩ : OscState ℚ) := by
  show Except.ok (⟨0, 6 * 440 / (-1)⟩ : OscState ℚ) = _
  norm_num

/-- Claim C5 amended: `prepareToPlay` performs no validation at all — for
every sample rate (including ≤ 0) and block size (including ≤ 0) it
returns successfully with the oscillator configured at 440 Hz and
increment `twoPi·440/sampleRate`; no configuration error is ever raised at
prepare time in these benchmarks (so there is also no eager setter-time
detection to speak of). -/
theorem prepare_never_fails (twoPi sr : ℚ) (bs : ℤ) :
    simpleSinePrepareToPlay twoPi sr bs =
      Except.ok ⟨0, twoPi * 440 / sr⟩ := rfl

/- Bounds of the temp-buffer accesses (claim C10). -/

/-- Claim C10: for every `processBlock` call whose block length `n` is at
most the `samplesPerBlock` used at `prepareToPlay` time, every access the
complex-graph body makes to the five prepare-allocated temp buffers
(sub-block views, gains, copies, adds, and the per-sample envelope and
delay loops) stays strictly below the allocated length `bs` of each
buffer. -/
theorem temp_buffer_accesses_in_bounds (n bs : ℕ) (hnb : n ≤ bs) :
    ∀ a ∈ complexTempBufferAccesses n, a.2 < bs := by
  have hseg : ∀ (k : ℕ) (a : ℕ × ℕ),
      a ∈ (List.range n).map (fun i => (k, i)) → a.2 < bs := by
    intro k a ha
    rcases List.mem_map.mp ha with ⟨i, hi, rfl⟩
    exact lt_of_lt_of_le (List.mem_range.mp hi) hnb
  intro a ha
  unfold complexTempBufferAccesses at ha
  simp only [List.mem_append] at ha
  rcases ha with
    ((((((((((((((((h | h) | h) | h) | h) | h) | h) | h) | h) | h) | h) |
      h) | h) | h) | h) | h) | h) <;>
    exact hseg _ a h

/-- Witness for `temp_buffer_accesses_in_bounds` at `n = 1`, `bs = 2` and
the access `(2, 0)` (the first sample written into temp buffer 2). -/
theorem temp_buffer_accesses_in_bounds_check :
    1 ≤ 2 ∧ ((2 : ℕ), (0 : ℕ)) ∈ complexTempBufferAccesses 1 ∧ (0 : ℕ) < 2 :=
  ⟨by decide, by decide,
    temp_buffer_accesses_in_bounds 1 2 (by decide) (2, 0) (by decide)⟩

/-- Witness for `simple_sine_benchmark_spec` at `k = 0`. -/
theorem simple_sine_benchmark_spec_check :
    (0 : ℕ) < 441000 ∧
    ((runBlocks (simpleSineProcessBlock Real.sin (2 * Real.pi))
        (driverBlocks 512 441000) ⟨0, 2 * Real.pi * 440 / 44100⟩).1.length
      = 441000 ∧
    (runBlocks (simpleSineProcessBlock Real.sin (2 * Real.pi))
        (driverBlocks 512 441000) ⟨0, 2 * Real.pi * 440 / 44100⟩).1.getD 0 0
      = 0 ∧
    (runBlocks (simpleSineProcessBlock Real.sin (2 * Real.pi))
        (driverBlocks 512 441000) ⟨0, 2 * Real.pi * 440 / 44100⟩).1.getD 0 0
      = Real.sin (2 * Real.pi * 440 * ((0 : ℕ) : ℝ) / 44100)) :=
  ⟨by norm_num, simple_sine_benchmark_spec 0 (by norm_num)⟩

end OscenBench
